import Mathlib

/-!
Verification development for the Span-Wagner EOS flash API repository.

The definitions below are shallow embeddings of the Python source:
  - `src/API/endpoints/pt_flash.py` (grid generation, flash loop, validation)
  - `src/API/endpoints/calculate.py`, `src/API/endpoints/ph_flash.py`
  - `src/API/utils/olga_formatter.py` (OLGA TAB encoder)
Machine floats are modelled by exact rationals (ℚ); the flash engine is an
opaque per-point success predicate; dictionaries with optional fields are
modelled by `Option`.
-/

/-! ### Flash orchestrator, from `pt_flash.py` lines 262-281.

The loop `for p_idx, P in enumerate(P_range): for t_idx, T in enumerate(T_range):`
calls the engine at each point; on success it appends
`{'index': idx, 'p_idx': p_idx, 't_idx': t_idx, ...}` and increments the
running counter `idx`; on failure it logs and `continue`s.  The engine call
is opaque, so it is modelled by a success predicate `ok : ℕ → ℕ → Bool` on
the grid indices.  `p_idx`/`t_idx` are the generic `x_idx`/`y_idx`. -/

structure FlashEntry where
  index : ℕ
  x_idx : ℕ
  y_idx : ℕ
  deriving DecidableEq, Repr

/-- Row-major enumeration of the 2D grid index pairs: the nested
`for p_idx ...: for t_idx ...:` loop order of `pt_flash.py`. -/
def gridRow (i ny : ℕ) : List (ℕ × ℕ) := (List.range ny).map (fun j => (i, j))

def gridPairs : ℕ → ℕ → List (ℕ × ℕ)
  | 0, _ => []
  | n + 1, ny => gridPairs n ny ++ gridRow n ny

/-- The body of the flash loop of `pt_flash.py` lines 262-281: `c` is the
running counter `idx` (starts at 0, incremented only after a success);
a failing point is skipped (`continue`). -/
def flashLoop (ok : ℕ → ℕ → Bool) : List (ℕ × ℕ) → ℕ → List FlashEntry
  | [], _ => []
  | (i, j) :: rest, c =>
      if ok i j then ⟨c, i, j⟩ :: flashLoop ok rest (c + 1)
      else flashLoop ok rest c

/-- The `results` list built by `pt_flash.py` lines 262-281 over an
`nx`-point x-grid (pressure) and `ny`-point y-grid (temperature). -/
def ptFlashResults (nx ny : ℕ) (ok : ℕ → ℕ → Bool) : List FlashEntry :=
  flashLoop ok (gridPairs nx ny) 0

/-! ### Composition validation, from `pt_flash.py` lines 13-16
(identical in `calculate.py` lines 12-15 and `ph_flash.py` lines 12-15):
`abs(total - 1.0) < 1e-6` over the fraction sum. -/

def validate_composition (fractions : List ℚ) : Bool :=
  decide (|fractions.sum - 1| < 1 / 1000000)

/-- The endpoint-level ordering of `pt_flash.py`: composition validation
(line 171) happens before the mixture setup and the flash loop, and an
invalid composition returns the 400 error without touching the engine.
The flash engine outcome predicate `ok` is a parameter, so the error
branch is independent of it by construction. -/
def ptFlashEndpoint (fractions : List ℚ) (nx ny : ℕ) (ok : ℕ → ℕ → Bool) :
    Except String (List FlashEntry) :=
  if validate_composition fractions then
    Except.ok (ptFlashResults nx ny ok)
  else
    Except.error "Invalid composition - fractions must sum to 1"

/-! ### Helper lemmas about the orchestrator -/

theorem gridRow_mem {p : ℕ × ℕ} {i ny : ℕ} :
    p ∈ gridRow i ny ↔ p.1 = i ∧ p.2 < ny := by
  cases p with
  | mk a b =>
    simp only [gridRow, List.mem_map, List.mem_range, Prod.mk.injEq]
    constructor
    · rintro ⟨j, hj, h1, h2⟩
      exact ⟨h1.symm, h2 ▸ hj⟩
    · rintro ⟨h1, h2⟩
      exact ⟨b, h2, h1.symm, rfl⟩

theorem gridPairs_mem {p : ℕ × ℕ} : ∀ {nx ny : ℕ},
    p ∈ gridPairs nx ny ↔ p.1 < nx ∧ p.2 < ny := by
  intro nx
  induction nx with
  | zero => simp [gridPairs]
  | succ n ih =>
    intro ny
    simp only [gridPairs, List.mem_append, ih, gridRow_mem]
    omega

theorem gridPairs_length : ∀ nx ny : ℕ, (gridPairs nx ny).length = nx * ny := by
  intro nx
  induction nx with
  | zero => intro ny; simp [gridPairs]
  | succ n ih =>
    intro ny
    simp only [gridPairs, List.length_append, ih, gridRow, List.length_map,
      List.length_range]
    ring

theorem gridRow_nodup (i ny : ℕ) : (gridRow i ny).Nodup := by
  apply List.Nodup.map
  · intro a b hab
    simpa using hab
  · exact List.nodup_range ny

theorem gridPairs_nodup : ∀ nx ny : ℕ, (gridPairs nx ny).Nodup := by
  intro nx
  induction nx with
  | zero => intro ny; simp [gridPairs]
  | succ n ih =>
    intro ny
    refine List.Nodup.append (ih ny) (gridRow_nodup n ny) ?_
    intro p hp hp'
    have h1 := gridPairs_mem.mp hp
    have h2 := gridRow_mem.mp hp'
    omega

theorem flashLoop_length_le (ok : ℕ → ℕ → Bool) :
    ∀ (l : List (ℕ × ℕ)) (c : ℕ), (flashLoop ok l c).length ≤ l.length := by
  intro l
  induction l with
  | nil => intro c; simp [flashLoop]
  | cons p rest ih =>
    intro c
    cases p with
    | mk i j =>
      by_cases h : ok i j
      · simp only [flashLoop, if_pos h, List.length_cons]
        exact Nat.succ_le_succ (ih (c + 1))
      · simp only [flashLoop, if_neg h, List.length_cons]
        exact Nat.le_succ_of_le (ih c)

theorem flashLoop_mem_ok (ok : ℕ → ℕ → Bool) :
    ∀ (l : List (ℕ × ℕ)) (c : ℕ) (e : FlashEntry),
      e ∈ flashLoop ok l c → ok e.x_idx e.y_idx = true := by
  intro l
  induction l with
  | nil => intro c e he; simp [flashLoop] at he
  | cons p rest ih =>
    intro c e he
    cases p with
    | mk i j =>
      by_cases h : ok i j
      · rw [flashLoop, if_pos h] at he
        rcases List.mem_cons.mp he with h' | h'
        · subst h'; exact h
        · exact ih (c + 1) e h'
      · rw [flashLoop, if_neg h] at he
        exact ih c e he

theorem flashLoop_complete (ok : ℕ → ℕ → Bool) :
    ∀ (l : List (ℕ × ℕ)) (c : ℕ) (p : ℕ × ℕ), p ∈ l → ok p.1 p.2 = true →
      ∃ e ∈ flashLoop ok l c, e.x_idx = p.1 ∧ e.y_idx = p.2 := by
  intro l
  induction l with
  | nil => intro c p hp; simp at hp
  | cons q rest ih =>
    intro c p hp hok
    cases q with
    | mk i j =>
      by_cases h : ok i j
      · rw [flashLoop, if_pos h]
        rcases List.mem_cons.mp hp with h' | h'
        · subst h'
          exact ⟨⟨c, i, j⟩, List.mem_cons_self _ _, rfl, rfl⟩
        · obtain ⟨e, he, hx, hy⟩ := ih (c + 1) p h' hok
          exact ⟨e, List.mem_cons_of_mem _ he, hx, hy⟩
      · rw [flashLoop, if_neg h]
        rcases List.mem_cons.mp hp with h' | h'
        · exfalso
          rw [h'] at hok
          exact h hok
        · exact ih c p h' hok

theorem flashLoop_pairs_sublist (ok : ℕ → ℕ → Bool) :
    ∀ (l : List (ℕ × ℕ)) (c : ℕ),
      ((flashLoop ok l c).map (fun e => (e.x_idx, e.y_idx))).Sublist l := by
  intro l
  induction l with
  | nil => intro c; simp [flashLoop]
  | cons q rest ih =>
    intro c
    cases q with
    | mk i j =>
      by_cases h : ok i j
      · rw [flashLoop, if_pos h]
        simpa using List.Sublist.cons₂ (i, j) (ih (c + 1))
      · rw [flashLoop, if_neg h]
        exact List.Sublist.cons (i, j) (ih c)

theorem flashLoop_pairs_mem (ok : ℕ → ℕ → Bool) {l : List (ℕ × ℕ)} {c : ℕ}
    {e : FlashEntry} (he : e ∈ flashLoop ok l c) : (e.x_idx, e.y_idx) ∈ l := by
  have h1 : (e.x_idx, e.y_idx) ∈ (flashLoop ok l c).map (fun e => (e.x_idx, e.y_idx)) :=
    List.mem_map_of_mem _ he
  exact (flashLoop_pairs_sublist ok l c).subset h1

theorem flashLoop_getElem_index (ok : ℕ → ℕ → Bool) :
    ∀ (l : List (ℕ × ℕ)) (c k : ℕ) (e : FlashEntry),
      (flashLoop ok l c)[k]? = some e → e.index = c + k := by
  intro l
  induction l with
  | nil => intro c k e he; simp [flashLoop] at he
  | cons q rest ih =>
    intro c k e he
    cases q with
    | mk i j =>
      by_cases h : ok i j
      · rw [flashLoop, if_pos h] at he
        cases k with
        | zero =>
          simp only [List.getElem?_cons_zero, Option.some.injEq] at he
          subst he
          rfl
        | succ m =>
          rw [List.getElem?_cons_succ] at he
          have := ih (c + 1) m e he
          omega
      · rw [flashLoop, if_neg h] at he
        exact ih c k e he

theorem flashLoop_mem_all (ok : ℕ → ℕ → Bool) (hall : ∀ i j, ok i j = true) :
    ∀ (l : List (ℕ × ℕ)) (c : ℕ) (e : FlashEntry), e ∈ flashLoop ok l c →
      ∃ k, k < l.length ∧ l[k]? = some (e.x_idx, e.y_idx) ∧ e.index = c + k := by
  intro l
  induction l with
  | nil => intro c e he; simp [flashLoop] at he
  | cons q rest ih =>
    intro c e he
    cases q with
    | mk i j =>
      rw [flashLoop, if_pos (hall i j)] at he
      rcases List.mem_cons.mp he with h' | h'
      · subst h'
        exact ⟨0, by simp, by simp, by simp⟩
      · obtain ⟨k, hk, hget, hidx⟩ := ih (c + 1) e h'
        refine ⟨k + 1, by simpa using Nat.succ_lt_succ hk, ?_, by omega⟩
        rw [List.getElem?_cons_succ]
        exact hget

theorem gridPairs_succ (n ny : ℕ) :
    gridPairs (n + 1) ny = gridPairs n ny ++ gridRow n ny := rfl

theorem gridPairs_getElem? : ∀ (nx ny k : ℕ), k < (gridPairs nx ny).length →
    (gridPairs nx ny)[k]? = some (k / ny, k % ny) := by
  intro nx
  induction nx with
  | zero => intro ny k hk; simp [gridPairs] at hk
  | succ n ih =>
    intro ny k hk
    have hlen : (gridPairs n ny).length = n * ny := gridPairs_length n ny
    by_cases h : k < n * ny
    · rw [gridPairs_succ, List.getElem?_append, if_pos (by omega : k < (gridPairs n ny).length)]
      exact ih ny k (by omega)
    · have hk' : k < (n + 1) * ny := by
        have := gridPairs_length (n + 1) ny
        rw [← this]
        exact hk
      have hm : k - n * ny < ny := by
        have : (n + 1) * ny = n * ny + ny := by ring
        omega
      rw [gridPairs_succ, List.getElem?_append_right (by omega)]
      have hrow : (gridRow n ny)[k - (gridPairs n ny).length]? = some (n, k - n * ny) := by
        rw [hlen]
        simp only [gridRow]
        rw [List.getElem?_map]
        rw [List.getElem?_range hm]
        rfl
      rw [hrow]
      have hkeq : k = (k - n * ny) + n * ny := by omega
      have hdiv : k / ny = n := by
        conv_lhs => rw [hkeq]
        rw [Nat.add_mul_div_right _ _ (by omega : 0 < ny), Nat.div_eq_of_lt hm]
        omega
      have hmod : k % ny = k - n * ny := by
        conv_lhs => rw [hkeq]
        rw [Nat.add_mul_mod_self_right, Nat.mod_eq_of_lt hm]
      rw [hdiv, hmod]

/-! ### Grid generation.

`np.arange(a, b, s)` (for `s > 0`) produces `a, a+s, a+2s, …` stopping
strictly before `b`; its documented length is `ceil((b - a)/s)` (0 when
the span is nonpositive).  Floats are modelled by exact rationals. -/

def npArange (a b s : ℚ) : List ℚ :=
  (List.range (⌈(b - a) / s⌉.toNat)).map (fun k : ℕ => a + (k : ℚ) * s)

/-- The equidistant grid of `pt_flash.py` lines 249-259 and
`calculate.py` lines 150-159: `np.arange(from, to + resolution, resolution)`. -/
def equidistantGrid (vfrom vto res : ℚ) : List ℚ :=
  npArange vfrom (vto + res) res

/-- Range repair of `pt_flash.py` lines 194-198: `if p_to <= p_from:
p_to = p_from + pressure_resolution` (same for temperature). -/
def ptRepairTo (vfrom vto res : ℚ) : ℚ :=
  if vto ≤ vfrom then vfrom + res else vto

/-- Internal x-axis grid of `format_olga_tab` (`olga_formatter.py` lines
88-109), used when no `values` are supplied: the degenerate range is
repaired with the fixed constant `x_to = x_from + 10.0` (NOT the
resolution), a nonpositive resolution falls back to `10.0`, then
`np.arange(x_from, x_to + x_resolution, x_resolution)`. -/
def olgaXGrid (x_from x_to x_res : ℚ) : List ℚ :=
  let x_to2 := if x_to ≤ x_from then x_from + 10 else x_to
  let res2 := if x_res ≤ 0 then 10 else x_res
  npArange x_from (x_to2 + res2) res2

/-- Internal y-axis grid of `format_olga_tab` (`olga_formatter.py` lines
118-143): same repair `y_to = y_from + 10.0`; the resolution fallback is
`5.0`. -/
def olgaYGrid (y_from y_to y_res : ℚ) : List ℚ :=
  let y_to2 := if y_to ≤ y_from then y_from + 10 else y_to
  let res2 := if y_res ≤ 0 then 5 else y_res
  npArange y_from (y_to2 + res2) res2

theorem npArange_length (a b s : ℚ) :
    (npArange a b s).length = ⌈(b - a) / s⌉.toNat := by
  rw [npArange, List.length_map, List.length_range]

theorem equidistantGrid_length {vfrom vto res : ℚ} (h : vfrom < vto) (hr : 0 < res) :
    (equidistantGrid vfrom vto res).length = ⌈(vto - vfrom) / res⌉.toNat + 1 := by
  have hne : res ≠ 0 := ne_of_gt hr
  have hspan : (vto + res - vfrom) / res = (vto - vfrom) / res + 1 := by
    rw [show vto + res - vfrom = (vto - vfrom) + res by ring, add_div, div_self hne]
  have hpos : 0 < (vto - vfrom) / res := div_pos (by linarith) hr
  have hceil : 1 ≤ ⌈(vto - vfrom) / res⌉ := by
    exact_mod_cast Int.ceil_pos.mpr hpos
  rw [equidistantGrid, npArange_length, hspan, Int.ceil_add_one]
  omega

theorem npArange_pairwise_lt {a b s : ℚ} (hs : 0 < s) :
    List.Pairwise (· < ·) (npArange a b s) := by
  rw [npArange, List.pairwise_map]
  refine (List.pairwise_lt_range _).imp ?_
  intro i j hij
  have : (i : ℚ) < (j : ℚ) := by exact_mod_cast hij
  nlinarith

theorem npArange_getElem? {a b s : ℚ} {k : ℕ} (hk : k < ⌈(b - a) / s⌉.toNat) :
    (npArange a b s)[k]? = some (a + (k : ℚ) * s) := by
  rw [npArange]
  rw [List.getElem?_map, List.getElem?_range hk]
  rfl

theorem npArange_mem {a b s : ℚ} {k : ℕ} (hk : k < ⌈(b - a) / s⌉.toNat) :
    a + (k : ℚ) * s ∈ npArange a b s := by
  rw [npArange]
  exact List.mem_map_of_mem _ (List.mem_range.mpr hk)

theorem equidistantGrid_head {vfrom vto res : ℚ} (h : vfrom < vto) (hr : 0 < res) :
    (equidistantGrid vfrom vto res)[0]? = some vfrom := by
  have hlen := equidistantGrid_length h hr
  have h0 : 0 < ⌈(vto + res - vfrom) / res⌉.toNat := by
    have := npArange_length vfrom (vto + res) res
    rw [equidistantGrid] at hlen
    omega
  have := npArange_getElem? (a := vfrom) (b := vto + res) (s := res) h0
  rw [equidistantGrid, this]
  norm_num

theorem equidistantGrid_reaches {vfrom vto res : ℚ} (h : vfrom < vto) (hr : 0 < res) :
    ∃ x ∈ equidistantGrid vfrom vto res, vto ≤ x := by
  have hne : res ≠ 0 := ne_of_gt hr
  set d := (vto - vfrom) / res with hd
  have hdpos : 0 < d := div_pos (by linarith) hr
  have hceil1 : 1 ≤ ⌈d⌉ := by exact_mod_cast Int.ceil_pos.mpr hdpos
  have hspan : (vto + res - vfrom) / res = d + 1 := by
    rw [hd, show vto + res - vfrom = (vto - vfrom) + res by ring, add_div, div_self hne]
  have hlen : ⌈(vto + res - vfrom) / res⌉.toNat = ⌈d⌉.toNat + 1 := by
    rw [hspan, Int.ceil_add_one]
    omega
  refine ⟨vfrom + (⌈d⌉.toNat : ℚ) * res, ?_, ?_⟩
  · rw [equidistantGrid]
    exact npArange_mem (by omega)
  · have hcast : ((⌈d⌉.toNat : ℕ) : ℚ) = ((⌈d⌉ : ℤ) : ℚ) := by
      exact_mod_cast congrArg Int.cast (Int.toNat_of_nonneg (by omega))
    rw [hcast]
    have hle : d ≤ ((⌈d⌉ : ℤ) : ℚ) := Int.le_ceil d
    have : vto - vfrom ≤ ((⌈d⌉ : ℤ) : ℚ) * res := by
      have := (div_le_iff₀ hr).mp hle
      linarith [this]
    linarith

theorem equidistantGrid_length_dvd {vfrom vto res : ℚ} (h : vfrom < vto) (hr : 0 < res)
    (hdvd : ∃ k : ℤ, vto - vfrom = (k : ℚ) * res) :
    (equidistantGrid vfrom vto res).length = ⌊(vto - vfrom) / res⌋.toNat + 1 := by
  obtain ⟨k, hk⟩ := hdvd
  have hne : res ≠ 0 := ne_of_gt hr
  have hdk : (vto - vfrom) / res = (k : ℚ) := by
    rw [hk, mul_div_assoc, div_self hne, mul_one]
  rw [equidistantGrid_length h hr, hdk, Int.ceil_intCast, Int.floor_intCast]

/-! ### Bubble / dew line synthesis, `olga_formatter.py` lines 314-391.

`create_bubble_line(temps, n_pressure, pressures, results, endpoint_type)`
scans `results` for a critical point, but the scanned values are never used
in the returned list, so the embedding takes only the two grids.  Python's
`max()` / `min()` raise on an empty sequence; the embedding returns 0 there
(the claims only concern nonempty grids). -/

def pyMax : List ℚ → ℚ
  | [] => 0
  | x :: xs => xs.foldl max x

def pyMin : List ℚ → ℚ
  | [] => 0
  | x :: xs => xs.foldl min x

/-- `olga_formatter.py` lines 340-352: for each temperature index `i`,
`bubble_pressure = max_pressure * (1.0 - (i / len(temps)) * 0.3)` with
`max_pressure = max(pressures) * 1e5`. -/
def create_bubble_line (temps pressures : List ℚ) : List ℚ :=
  let max_pressure := pyMax pressures * 100000
  (List.range temps.length).map
    (fun i : ℕ => max_pressure * (1 - ((i : ℚ) / (temps.length : ℚ)) * (3 / 10)))

/-- `olga_formatter.py` lines 379-391: for each index `i` over
`reversed(temps)` (the temperature itself is unused),
`dew_pressure = min_pressure * (0.5 + (i / len(temps)) * 0.5)` with
`min_pressure = min(pressures) * 1e5`. -/
def create_dew_line (temps pressures : List ℚ) : List ℚ :=
  let min_pressure := pyMin pressures * 100000
  (List.range temps.length).map
    (fun i : ℕ => min_pressure * (1 / 2 + ((i : ℚ) / (temps.length : ℚ)) * (1 / 2)))

theorem foldl_max_ge (x : ℚ) : ∀ xs : List ℚ, x ≤ xs.foldl max x := by
  intro xs
  induction xs generalizing x with
  | nil => simp
  | cons y ys ih =>
    calc x ≤ max x y := le_max_left x y
    _ ≤ (y :: ys).foldl max x := by simpa using ih (max x y)

theorem pyMax_pos {l : List ℚ} (hne : l ≠ []) (hpos : ∀ p ∈ l, 0 < p) :
    0 < pyMax l := by
  cases l with
  | nil => exact absurd rfl hne
  | cons x xs =>
    have hx : 0 < x := hpos x (List.mem_cons_self _ _)
    calc (0 : ℚ) < x := hx
    _ ≤ xs.foldl max x := foldl_max_ge x xs

theorem foldl_min_pos : ∀ (xs : List ℚ) (x : ℚ), 0 < x → (∀ p ∈ xs, 0 < p) →
    0 < xs.foldl min x := by
  intro xs
  induction xs with
  | nil => intro x hx _; simpa using hx
  | cons y ys ih =>
    intro x hx hall
    have hy : 0 < y := hall y (List.mem_cons_self _ _)
    have : 0 < min x y := lt_min hx hy
    simpa using ih (min x y) this (fun p hp => hall p (List.mem_cons_of_mem _ hp))

theorem pyMin_pos {l : List ℚ} (hne : l ≠ []) (hpos : ∀ p ∈ l, 0 < p) :
    0 < pyMin l := by
  cases l with
  | nil => exact absurd rfl hne
  | cons x xs =>
    exact foldl_min_pos xs x (hpos x (List.mem_cons_self _ _))
      (fun p hp => hpos p (List.mem_cons_of_mem _ hp))

theorem create_bubble_line_length (temps pressures : List ℚ) :
    (create_bubble_line temps pressures).length = temps.length := by
  simp [create_bubble_line]

theorem create_dew_line_length (temps pressures : List ℚ) :
    (create_dew_line temps pressures).length = temps.length := by
  simp [create_dew_line]

theorem create_bubble_line_strictAnti {temps pressures : List ℚ}
    (ht : temps ≠ []) (hp : pressures ≠ []) (hpos : ∀ p ∈ pressures, 0 < p) :
    List.Pairwise (· > ·) (create_bubble_line temps pressures) := by
  have hM : 0 < pyMax pressures * 100000 := by
    have := pyMax_pos hp hpos
    nlinarith
  have hn : 0 < (temps.length : ℚ) := by
    have : temps.length ≠ 0 := fun h => ht (List.eq_nil_of_length_eq_zero h)
    exact_mod_cast Nat.pos_of_ne_zero this
  rw [create_bubble_line, List.pairwise_map]
  refine (List.pairwise_lt_range _).imp ?_
  intro i j hij
  have hcast : (i : ℚ) < (j : ℚ) := by exact_mod_cast hij
  have hfrac : (i : ℚ) / (temps.length : ℚ) < (j : ℚ) / (temps.length : ℚ) :=
    div_lt_div_of_pos_right hcast hn
  set M := pyMax pressures * 100000
  show M * (1 - (j : ℚ) / (temps.length : ℚ) * (3 / 10)) <
    M * (1 - (i : ℚ) / (temps.length : ℚ) * (3 / 10))
  nlinarith

theorem create_bubble_line_bounds {temps pressures : List ℚ}
    (ht : temps ≠ []) (hp : pressures ≠ []) (hpos : ∀ p ∈ pressures, 0 < p) :
    ∀ v ∈ create_bubble_line temps pressures,
      0 < v ∧ v ≤ pyMax pressures * 100000 := by
  have hM : 0 < pyMax pressures * 100000 := by
    have := pyMax_pos hp hpos
    nlinarith
  have hn : 0 < (temps.length : ℚ) := by
    have : temps.length ≠ 0 := fun h => ht (List.eq_nil_of_length_eq_zero h)
    exact_mod_cast Nat.pos_of_ne_zero this
  intro v hv
  rw [create_bubble_line, List.mem_map] at hv
  obtain ⟨i, hi, hveq⟩ := hv
  rw [List.mem_range] at hi
  have h0 : (0 : ℚ) ≤ (i : ℚ) / (temps.length : ℚ) :=
    div_nonneg (by positivity) (le_of_lt hn)
  have h1 : (i : ℚ) / (temps.length : ℚ) < 1 := by
    rw [div_lt_one hn]
    exact_mod_cast hi
  constructor
  · rw [← hveq]; nlinarith
  · rw [← hveq]; nlinarith

theorem create_dew_line_strictMono {temps pressures : List ℚ}
    (ht : temps ≠ []) (hp : pressures ≠ []) (hpos : ∀ p ∈ pressures, 0 < p) :
    List.Pairwise (· < ·) (create_dew_line temps pressures) := by
  have hm : 0 < pyMin pressures * 100000 := by
    have := pyMin_pos hp hpos
    nlinarith
  have hn : 0 < (temps.length : ℚ) := by
    have : temps.length ≠ 0 := fun h => ht (List.eq_nil_of_length_eq_zero h)
    exact_mod_cast Nat.pos_of_ne_zero this
  rw [create_dew_line, List.pairwise_map]
  refine (List.pairwise_lt_range _).imp ?_
  intro i j hij
  have hcast : (i : ℚ) < (j : ℚ) := by exact_mod_cast hij
  have hfrac : (i : ℚ) / (temps.length : ℚ) < (j : ℚ) / (temps.length : ℚ) :=
    div_lt_div_of_pos_right hcast hn
  set m := pyMin pressures * 100000
  show m * (1 / 2 + (i : ℚ) / (temps.length : ℚ) * (1 / 2)) <
    m * (1 / 2 + (j : ℚ) / (temps.length : ℚ) * (1 / 2))
  nlinarith

theorem create_dew_line_bounds {temps pressures : List ℚ}
    (ht : temps ≠ []) (hp : pressures ≠ []) (hpos : ∀ p ∈ pressures, 0 < p) :
    ∀ v ∈ create_dew_line temps pressures,
      0 < v ∧ v < pyMin pressures * 100000 := by
  have hm : 0 < pyMin pressures * 100000 := by
    have := pyMin_pos hp hpos
    nlinarith
  have hn : 0 < (temps.length : ℚ) := by
    have : temps.length ≠ 0 := fun h => ht (List.eq_nil_of_length_eq_zero h)
    exact_mod_cast Nat.pos_of_ne_zero this
  intro v hv
  rw [create_dew_line, List.mem_map] at hv
  obtain ⟨i, hi, hveq⟩ := hv
  rw [List.mem_range] at hi
  have h0 : (0 : ℚ) ≤ (i : ℚ) / (temps.length : ℚ) :=
    div_nonneg (by positivity) (le_of_lt hn)
  have h1 : (i : ℚ) / (temps.length : ℚ) < 1 := by
    rw [div_lt_one hn]
    exact_mod_cast hi
  constructor
  · rw [← hveq]; nlinarith
  · rw [← hveq]; nlinarith

/-! ### Vapor-fraction conversion, `olga_formatter.py` lines 568-598.

The Python `None` guard is outside the numeric domain of the model; all
remaining branches are in source order (`== 998`, `== -998`, `== 999`,
`< 0`, `> 1`, else identity).  The `except` clause is unreachable for
numeric inputs, so the function is total. -/

def convert_vapor_fraction_to_mass (q : ℚ) : ℚ :=
  if q = 998 then 1
  else if q = -998 then 0
  else if q = 999 then 1 / 2
  else if q < 0 then 0
  else if q > 1 then 1
  else q

/-! ### Sparse-result index mapping, `olga_formatter.py` lines 215-247
and `find_nearest_index` (lines 393-401).

A result dictionary is modelled by its index-relevant fields only:
`x_idx`/`y_idx` (`p_idx`/`t_idx` for PT flash) when present, the flat
`index`, and the two coordinate fields.  A coordinate field is
`some (some v)` when present and parseable as a number, `some none` when
present but unparsable (`float(...)` raises inside `find_nearest_index`),
and `none` when the key is absent. -/

structure RawResult where
  x_idx : Option ℤ
  y_idx : Option ℤ
  index : Option ℤ
  xval : Option (Option ℚ)
  yval : Option (Option ℚ)

/-- First index (numpy `argmin` keeps the first minimum) of the smallest
`|a - v|` over the array. -/
def argminAbsAux (v : ℚ) : List ℚ → ℕ → ℕ → ℚ → ℕ
  | [], _, besti, _ => besti
  | a :: rest, i, besti, bestv =>
      if |a - v| < bestv then argminAbsAux v rest (i + 1) i |a - v|
      else argminAbsAux v rest (i + 1) besti bestv

/-- `find_nearest_index(array, value)`: `np.abs(array - float(value)).argmin()`;
any exception (unparsable `value`, empty array) is caught and 0 returned. -/
def find_nearest_index (array : List ℚ) (value : Option ℚ) : ℕ :=
  match value with
  | none => 0
  | some v =>
      match array with
      | [] => 0
      | a :: rest => argminAbsAux v rest 1 0 |a - v|

/-- Index resolution of `format_olga_tab` lines 217-244: use
`(x_idx, y_idx)` when both are present; otherwise derive both from the flat
`index` by row-major division (`Python //` and `%` are floor division and
nonnegative remainder for a positive modulus, hence `Int.fdiv`/`Int.emod`);
otherwise map both coordinate values through `find_nearest_index`; otherwise
skip the result (`continue`). -/
def resolveGridIndices (r : RawResult) (x_grid y_grid : List ℚ) (ny : ℕ) :
    Option (ℤ × ℤ) :=
  match r.x_idx, r.y_idx with
  | some xi, some yi => some (xi, yi)
  | _, _ =>
      match r.index with
      | some idx => some (Int.fdiv idx ny, Int.emod idx ny)
      | none =>
          match r.xval, r.yval with
          | some xv, some yv =>
              some ((find_nearest_index x_grid xv : ℤ),
                (find_nearest_index y_grid yv : ℤ))
          | _, _ => none

/-- Bounds check of `format_olga_tab` line 247: a resolved result is
written into `property_arrays[...][x_idx, y_idx]` only when
`0 <= x_idx < nx_grid and 0 <= y_idx < ny_grid`; otherwise the point stays
at the table default. -/
def mappedCell (r : RawResult) (x_grid y_grid : List ℚ) : Option (ℕ × ℕ) :=
  match resolveGridIndices r x_grid y_grid y_grid.length with
  | none => none
  | some (xi, yi) =>
      if 0 ≤ xi ∧ xi < (x_grid.length : ℤ) ∧ 0 ≤ yi ∧ yi < (y_grid.length : ℤ) then
        some (xi.toNat, yi.toNat)
      else none

/-! ### OLGA numeric encoding, `format_grid_values` (`olga_formatter.py`
lines 600-647).

The source renders each value with the CPython format `f"{abs(val):.6E}"`,
which yields a mantissa `d.dddddd` (one nonzero leading digit, six
fractional digits, round-half-even) and an exponent of at least two digits
with an explicit sign.  That decimal conversion is modelled here over exact
rationals (`pySci6`); at the claim's concrete inputs the binary-float
rounding of CPython and the exact rational rounding produce identical
digits.  The subsequent string surgery of the source
(`mantissa.replace("0.", "").replace(".", "")`, `ljust(6, '0')`,
`f".{mantissa}E{exponent}"`, 5 values per line joined by 4 spaces with
`rstrip`) is embedded literally on character lists. -/

def ndigitsAux : ℕ → ℕ → ℕ
  | 0, _ => 0
  | f + 1, n => if n = 0 then 0 else ndigitsAux f (n / 10) + 1

/-- Number of decimal digits of `n` (0 for 0). -/
def ndigits (n : ℕ) : ℕ := ndigitsAux (n + 1) n

def digitCharsAux : ℕ → ℕ → List Char
  | 0, _ => []
  | f + 1, n => if n = 0 then [] else Char.ofNat (48 + n % 10) :: digitCharsAux f (n / 10)

/-- Decimal digit characters of a natural number, most significant first. -/
def natChars (n : ℕ) : List Char :=
  if n = 0 then ['0'] else (digitCharsAux (n + 1) n).reverse

/-- Is `a / b ≥ 10 ^ z` (for positive naturals `a`, `b`)? -/
def qGePow10 (a b : ℕ) (z : ℤ) : Bool :=
  if 0 ≤ z then decide (b * 10 ^ z.toNat ≤ a) else decide (b ≤ a * 10 ^ (-z).toNat)

/-- The decimal exponent of a positive rational `q`: the unique `e` with
`10 ^ e ≤ q < 10 ^ (e + 1)`, located from the digit counts of the
numerator and denominator. -/
def decExp (q : ℚ) : ℤ :=
  let a := q.num.natAbs
  let b := q.den
  let e0 : ℤ := (ndigits a : ℤ) - (ndigits b : ℤ)
  if qGePow10 a b e0 then e0 else e0 - 1

def ratFloor (x : ℚ) : ℤ := Int.fdiv x.num x.den

/-- Round to the nearest integer, ties to even (CPython float formatting). -/
def roundHalfEven (x : ℚ) : ℤ :=
  let f := ratFloor x
  let r := x - (f : ℚ)
  if r < 1 / 2 then f
  else if 1 / 2 < r then f + 1
  else if f % 2 = 0 then f else f + 1

def pySciMantissa (m : ℕ) : List Char :=
  match natChars m with
  | [] => []
  | c :: rest => c :: '.' :: rest

/-- Exponent part of CPython `%.6E` output: sign then at least two digits. -/
def expChars (e : ℤ) : List Char :=
  let sign := if e < 0 then '-' else '+'
  let n := e.natAbs
  let ds := natChars n
  sign :: (if n < 10 then '0' :: ds else ds)

/-- CPython `f"{q:.6E}"` for `q ≥ 0`, split at `E`: the mantissa characters
`d.dddddd` and the exponent characters. -/
def pySci6 (q : ℚ) : List Char × List Char :=
  if q = 0 then (['0', '.', '0', '0', '0', '0', '0', '0'], ['+', '0', '0'])
  else
    let e := decExp q
    let scaled := if e ≤ 6 then q * (10 : ℚ) ^ (6 - e).toNat
      else q / (10 : ℚ) ^ (e - 6).toNat
    let m0 := (roundHalfEven scaled).toNat
    if m0 = 10 ^ 7 then (pySciMantissa (10 ^ 6), expChars (e + 1))
    else (pySciMantissa m0, expChars e)

/-- Python `str.replace(pat, "")`: erase every (leftmost, non-overlapping)
occurrence of `pat`.  Fuelled recursion; `fuel = s.length` is enough for a
nonempty pattern. -/
def eraseAllSub (pat : List Char) : ℕ → List Char → List Char
  | 0, s => s
  | _ + 1, [] => []
  | f + 1, c :: rest =>
      if (c :: rest).take pat.length = pat then
        eraseAllSub pat f ((c :: rest).drop pat.length)
      else c :: eraseAllSub pat f rest

def pyReplaceEmpty (pat s : List Char) : List Char := eraseAllSub pat s.length s

/-- Python `str.ljust(w, c)`. -/
def ljustChars (s : List Char) (w : ℕ) (c : Char) : List Char :=
  s ++ List.replicate (w - s.length) c

def isPySpace (c : Char) : Bool := c = ' ' || c = '\t' || c = '\n' || c = '\r'

/-- Python `str.rstrip()`. -/
def pyRstrip (s : List Char) : List Char :=
  (s.reverse.dropWhile isPySpace).reverse

/-- The per-value body of the `for val in line_values` loop of
`format_grid_values` (lines 618-640): take `f"{abs(val):.6E}"`, split at
`E`, apply `mantissa.replace("0.", "").replace(".", "").ljust(6, '0')`, and
emit `f"-.{mantissa}E{exponent}"` for negative values,
`f".{mantissa}E{exponent}"` otherwise. -/
def formatValChars (val : ℚ) : List Char :=
  if val < 0 then
    let me := pySci6 (-val)
    let mant := ljustChars (pyReplaceEmpty ['.'] (pyReplaceEmpty ['0', '.'] me.1)) 6 '0'
    '-' :: '.' :: (mant ++ 'E' :: me.2)
  else
    let me := pySci6 val
    let mant := ljustChars (pyReplaceEmpty ['.'] (pyReplaceEmpty ['0', '.'] me.1)) 6 '0'
    '.' :: (mant ++ 'E' :: me.2)

def chunksAux (k : ℕ) : ℕ → List ℚ → List (List ℚ)
  | 0, _ => []
  | _ + 1, [] => []
  | f + 1, l => l.take k :: chunksAux k f (l.drop k)

def spaces4 : List Char := [' ', ' ', ' ', ' ']

/-- `format_grid_values(values, values_per_line=5)`: chunks of 5 values,
each line built as `"    "` followed by each formatted value plus
`"    "`, right-stripped, with a trailing newline. -/
def format_grid_values (values : List ℚ) : String :=
  let body := (chunksAux 5 values.length values).map
    (fun line_values =>
      pyRstrip (spaces4 ++ (line_values.map (fun v => formatValChars v ++ spaces4)).flatten)
        ++ ['\n'])
  String.mk body.flatten

/-! ### Claim theorems -/

/-- C1: the claim states the encoder renders every finite value with a
6-digit mantissa, `1234.56 ↦ .123456E+04` and `-0.0001 ↦ -.100000E-03`.
The code disagrees: CPython `f"{v:.6E}"` produces `d.dddddd` with a
nonzero digit before the point, so `replace("0.", "")` never fires and
removing the decimal point leaves SEVEN mantissa digits while the exponent
keeps its `d.dddddd` normalization; `1234.56` is rendered `.1234560E+03`
(which denotes 123.456, a tenfold error) and `-0.0001` is rendered
`-.1000000E-04`.  This contradicts the source's own comments
(`Ensure mantissa has 6 digits`) and the 6-digit header constant
`.276731E-08`, so it is a code bug; this theorem evaluates the embedded
encoder at the failing inputs. -/
theorem c1_numeric_encoding :
    format_grid_values [(123456 : ℚ) / 100, -(1 : ℚ) / 10000] =
        "    .1234560E+03    -.1000000E-04\n" ∧
      formatValChars ((123456 : ℚ) / 100) ≠ ".123456E+04".data ∧
      formatValChars (-(1 : ℚ) / 10000) ≠ "-.100000E-03".data := by
  refine ⟨?_, ?_, ?_⟩
  · with_unfolding_all rfl
  · intro h
    have h2 : formatValChars ((123456 : ℚ) / 100) = ".1234560E+03".data := by
      with_unfolding_all rfl
    rw [h2] at h
    simp at h
  · intro h
    have h2 : formatValChars (-(1 : ℚ) / 10000) = "-.1000000E-04".data := by
      with_unfolding_all rfl
    rw [h2] at h
    simp at h

/-- C2 counterexample: with nx = 1, ny = 2 and a flash failure at grid
point (0,0), the sole appended result (for the successful point (0,1))
carries `index = 0` (the running success counter), not `0*ny+1 = 1` as the
claim requires "regardless of how many earlier grid points failed". -/
theorem c2_counterexample :
    ptFlashResults 1 2 (fun _ j => j == 1) = [⟨0, 0, 1⟩] ∧
      ¬ (∀ e ∈ ptFlashResults 1 2 (fun _ j => j == 1),
          e.index = e.x_idx * 2 + e.y_idx) := by
  decide

/-- C2 (amended): each appended result's `index` equals its position in the
results list — the number of earlier successful flashes — and this equals
`x_idx * ny + y_idx` when every grid point succeeds (a preceding failure
shifts all later index values down, as the counterexample shows). -/
theorem c2_index_amended (nx ny : ℕ) (ok : ℕ → ℕ → Bool) :
    (∀ (k : ℕ) (e : FlashEntry),
        (ptFlashResults nx ny ok)[k]? = some e → e.index = k) ∧
      (∀ e ∈ ptFlashResults nx ny (fun _ _ => true),
        e.index = e.x_idx * ny + e.y_idx) := by
  constructor
  · intro k e he
    have := flashLoop_getElem_index ok (gridPairs nx ny) 0 k e he
    omega
  · intro e he
    obtain ⟨k, hk, hget, hidx⟩ :=
      flashLoop_mem_all (fun _ _ => true) (fun _ _ => rfl) (gridPairs nx ny) 0 e he
    have h2 := gridPairs_getElem? nx ny k hk
    have h3 := Option.some.inj (h2.symm.trans hget)
    obtain ⟨hx, hy⟩ := Prod.mk.injEq .. |>.mp h3
    rw [hidx, ← hx, ← hy, Nat.zero_add, Nat.mul_comm]
    exact (Nat.div_add_mod k ny).symm

/-- C2 witness: the amended theorem applied at concrete inputs — the entry
appended after a failure has index 0 (its list position), and with all
points succeeding on a 2×2 grid the last entry has index 1*2+1. -/
theorem c2_index_amended_witness :
    (⟨0, 0, 1⟩ : FlashEntry).index = 0 ∧
      (⟨3, 1, 1⟩ : FlashEntry).index = 1 * 2 + 1 :=
  ⟨(c2_index_amended 1 2 (fun _ j => j == 1)).1 0 ⟨0, 0, 1⟩ (by decide),
   (c2_index_amended 2 2 (fun _ _ => true)).2 ⟨3, 1, 1⟩ (by decide)⟩

/-- C3 counterexample: for from = 1, to = 10, resolution = 5 (the spec's own
scenario), `np.arange(1, 10+5, 5)` yields the 3-point grid [1, 6, 11],
while the claimed length `floor((to-from)/resolution) + 1 = floor(1.8) + 1`
is 2: the claim's length formula fails whenever the resolution does not
divide the span exactly. -/
theorem c3_counterexample :
    (equidistantGrid 1 10 5).length = 3 ∧
      ⌊((10 : ℚ) - 1) / 5⌋.toNat + 1 = 2 ∧ (3 : ℕ) ≠ 2 := by
  refine ⟨?_, ?_, by decide⟩
  · with_unfolding_all rfl
  · with_unfolding_all rfl

/-- C3 (amended): for to > from and resolution > 0, the equidistant grid
has length `ceil((to-from)/resolution) + 1` — which is the claimed
`floor((to-from)/resolution) + 1` exactly when the resolution divides the
span, and one more otherwise — is strictly increasing, starts at `from`,
and contains a point ≥ `to`. -/
theorem c3_grid_amended (vfrom vto res : ℚ) (h : vfrom < vto) (hr : 0 < res) :
    (equidistantGrid vfrom vto res).length = ⌈(vto - vfrom) / res⌉.toNat + 1 ∧
      ⌊(vto - vfrom) / res⌋.toNat + 1 ≤ (equidistantGrid vfrom vto res).length ∧
      (equidistantGrid vfrom vto res).length ≤ ⌊(vto - vfrom) / res⌋.toNat + 2 ∧
      ((∃ k : ℤ, vto - vfrom = (k : ℚ) * res) →
        (equidistantGrid vfrom vto res).length = ⌊(vto - vfrom) / res⌋.toNat + 1) ∧
      List.Pairwise (· < ·) (equidistantGrid vfrom vto res) ∧
      (equidistantGrid vfrom vto res)[0]? = some vfrom ∧
      ∃ x ∈ equidistantGrid vfrom vto res, vto ≤ x := by
  have hlen := equidistantGrid_length h hr
  have hfloor0 : 0 ≤ ⌊(vto - vfrom) / res⌋ :=
    Int.floor_nonneg.mpr (le_of_lt (div_pos (by linarith) hr))
  have hfc : ⌊(vto - vfrom) / res⌋ ≤ ⌈(vto - vfrom) / res⌉ :=
    Int.floor_le_ceil _
  have hcf : ⌈(vto - vfrom) / res⌉ ≤ ⌊(vto - vfrom) / res⌋ + 1 :=
    Int.ceil_le_floor_add_one _
  refine ⟨hlen, by omega, by omega, ?_, ?_, ?_, ?_⟩
  · intro hdvd
    exact equidistantGrid_length_dvd h hr hdvd
  · exact npArange_pairwise_lt hr
  · exact equidistantGrid_head h hr
  · exact equidistantGrid_reaches h hr

/-- C3 witness: the amended theorem applied at from = 1, to = 10,
resolution = 5, where the grid [1, 6, 11] has length ceil(9/5) + 1 = 3. -/
theorem c3_grid_amended_witness :
    ((1 : ℚ) < 10 ∧ (0 : ℚ) < 5) ∧
      (equidistantGrid 1 10 5).length = ⌈((10 : ℚ) - 1) / 5⌉.toNat + 1 :=
  ⟨⟨by norm_num, by norm_num⟩,
   (c3_grid_amended 1 10 5 (by norm_num) (by norm_num)).1⟩

/-- C4: a flash failure at a single grid point only drops that point: the
batch still returns a result list of length ≤ nx*ny, the failing point
contributes no entry, and every other in-range point where the engine
succeeds still contributes an entry (the loop body catches the per-point
exception and `continue`s, so the whole batch never errors — the embedded
loop is a total function). -/
theorem c4_failure_isolation (nx ny : ℕ) (ok : ℕ → ℕ → Bool) (i j : ℕ)
    (hfail : ok i j = false) :
    (ptFlashResults nx ny ok).length ≤ nx * ny ∧
      (∀ e ∈ ptFlashResults nx ny ok, ¬(e.x_idx = i ∧ e.y_idx = j)) ∧
      (∀ a b : ℕ, a < nx → b < ny → ok a b = true →
        ∃ e ∈ ptFlashResults nx ny ok, e.x_idx = a ∧ e.y_idx = b) := by
  refine ⟨?_, ?_, ?_⟩
  · have hle := flashLoop_length_le ok (gridPairs nx ny) 0
    rw [gridPairs_length] at hle
    exact hle
  · rintro e he ⟨hxe, hye⟩
    have hok := flashLoop_mem_ok ok _ _ e he
    rw [hxe, hye, hfail] at hok
    exact Bool.noConfusion hok
  · intro a b ha hb hok
    exact flashLoop_complete ok _ 0 (a, b) (gridPairs_mem.mpr ⟨ha, hb⟩) hok

/-- C4 witness: the theorem applied on a 2×2 grid where the engine fails at
(0,0): the batch result length stays within nx*ny. -/
theorem c4_failure_isolation_witness :
    (ptFlashResults 2 2 (fun a b => !(a == 0 && b == 0))).length ≤ 2 * 2 :=
  (c4_failure_isolation 2 2 (fun a b => !(a == 0 && b == 0)) 0 0 rfl).1

/-- C5: in every result list the (x_idx, y_idx) pairs are pairwise distinct
(the emitted pair list is a sublist of the duplicate-free row-major grid
enumeration) and each pair lies within [0,nx) × [0,ny). -/
theorem c5_unique_indices (nx ny : ℕ) (ok : ℕ → ℕ → Bool) :
    ((ptFlashResults nx ny ok).map (fun e => (e.x_idx, e.y_idx))).Nodup ∧
      ∀ e ∈ ptFlashResults nx ny ok, e.x_idx < nx ∧ e.y_idx < ny := by
  constructor
  · exact List.Nodup.sublist (flashLoop_pairs_sublist ok (gridPairs nx ny) 0)
      (gridPairs_nodup nx ny)
  · intro e he
    exact gridPairs_mem.mp (flashLoop_pairs_mem ok he)

/-- C5 witness: the bounds part applied to the single surviving entry of a
1×2 run with a failure at (0,0). -/
theorem c5_unique_indices_witness :
    (⟨0, 0, 1⟩ : FlashEntry).x_idx < 1 ∧ (⟨0, 0, 1⟩ : FlashEntry).y_idx < 2 :=
  (c5_unique_indices 1 2 (fun _ j => j == 1)).2 ⟨0, 0, 1⟩ (by decide)

/-- C6 counterexample: the claim says every degenerate range is repaired by
`to = from + resolution`, but `format_olga_tab`'s internal grid generation
repairs with the fixed constant `to = from + 10.0`: for from = 5, to = 5,
resolution = 2 the formatter builds the 6-point grid arange(5, 17, 2)
instead of the 2-point grid arange(5, 9, 2) the claimed repair would give. -/
theorem c6_counterexample :
    olgaXGrid 5 5 2 ≠ equidistantGrid 5 (5 + 2) 2 ∧
      (olgaXGrid 5 5 2).length = 6 ∧ (equidistantGrid 5 (5 + 2) 2).length = 2 := by
  have h1 : (olgaXGrid 5 5 2).length = 6 := by with_unfolding_all rfl
  have h2 : (equidistantGrid 5 (5 + 2) 2).length = 2 := by with_unfolding_all rfl
  refine ⟨fun h => ?_, h1, h2⟩
  rw [h, h2] at h1
  exact absurd h1 (by decide)

/-- C6 (amended): a degenerate range (to ≤ from) is silently repaired and
the request proceeds with a nonempty grid and no error, but the repair
value differs by code path: the flash endpoints (`pt_flash.py` lines
194-198) set `to = from + resolution`, while `format_olga_tab`'s internal
range parsing (`olga_formatter.py` lines 98-105 and 132-139) sets
`to = from + 10.0` on both axes regardless of the resolution. -/
theorem c6_repair_amended (a b r : ℚ) (hba : b ≤ a) (hr : 0 < r) :
    ptRepairTo a b r = a + r ∧
      olgaXGrid a b r = npArange a (a + 10 + r) r ∧
      olgaYGrid a b r = npArange a (a + 10 + r) r ∧
      0 < (olgaXGrid a b r).length ∧
      0 < (equidistantGrid a (ptRepairTo a b r) r).length := by
  have hnr : ¬(r ≤ 0) := not_le.mpr hr
  have ex : olgaXGrid a b r =
      npArange a ((if b ≤ a then a + 10 else b) + (if r ≤ 0 then 10 else r))
        (if r ≤ 0 then 10 else r) := rfl
  have ey : olgaYGrid a b r =
      npArange a ((if b ≤ a then a + 10 else b) + (if r ≤ 0 then 5 else r))
        (if r ≤ 0 then 5 else r) := rfl
  have hx : olgaXGrid a b r = npArange a (a + 10 + r) r := by
    rw [ex, if_pos hba, if_neg hnr]
  have hy : olgaYGrid a b r = npArange a (a + 10 + r) r := by
    rw [ey, if_pos hba, if_neg hnr]
  have hrep : ptRepairTo a b r = a + r := by
    rw [ptRepairTo, if_pos hba]
  refine ⟨hrep, hx, hy, ?_, ?_⟩
  · rw [hx, npArange_length]
    have hspan : (a + 10 + r - a) / r = (10 + r) / r := by
      rw [show a + 10 + r - a = 10 + r by ring]
    have hpos : 0 < (10 + r) / r := div_pos (by linarith) hr
    have hceil : 1 ≤ ⌈(10 + r) / r⌉ := by exact_mod_cast Int.ceil_pos.mpr hpos
    rw [hspan]
    omega
  · rw [hrep, equidistantGrid_length (by linarith) hr]
    omega

/-- C6 witness: the amended theorem applied at from = 5, to = 5,
resolution = 2: the flash-endpoint repair yields to = 5 + 2. -/
theorem c6_repair_amended_witness :
    ((5 : ℚ) ≤ 5 ∧ (0 : ℚ) < 2) ∧ ptRepairTo 5 5 2 = 5 + 2 :=
  ⟨⟨le_refl 5, by norm_num⟩, (c6_repair_amended 5 5 2 (le_refl 5) (by norm_num)).1⟩

/-- C7: the mass-fraction conversion maps 998 to 1, −998 to 0, 999 to 0.5
(checked before the generic `< 0` / `> 1` clamps, in source order), clamps
any other negative value to 0 and any other value above 1 to 1, and returns
values in [0, 1] unchanged; the embedded function is total, matching the
source whose `except` clause is unreachable for numeric input. -/
theorem c7_vapor_fraction (q : ℚ) :
    (q = 998 → convert_vapor_fraction_to_mass q = 1) ∧
      (q = -998 → convert_vapor_fraction_to_mass q = 0) ∧
      (q = 999 → convert_vapor_fraction_to_mass q = 1 / 2) ∧
      (q < 0 → q ≠ -998 → convert_vapor_fraction_to_mass q = 0) ∧
      (1 < q → q ≠ 998 → q ≠ 999 → convert_vapor_fraction_to_mass q = 1) ∧
      (0 ≤ q → q ≤ 1 → convert_vapor_fraction_to_mass q = q) := by
  refine ⟨?_, ?_, ?_, ?_, ?_, ?_⟩
  · intro h
    rw [convert_vapor_fraction_to_mass, if_pos h]
  · intro h
    rw [convert_vapor_fraction_to_mass, if_neg (by rw [h]; norm_num), if_pos h]
  · intro h
    rw [convert_vapor_fraction_to_mass, if_neg (by rw [h]; norm_num),
      if_neg (by rw [h]; norm_num), if_pos h]
  · intro h1 h2
    rw [convert_vapor_fraction_to_mass,
      if_neg (by intro he; rw [he] at h1; norm_num at h1), if_neg h2,
      if_neg (by intro he; rw [he] at h1; norm_num at h1), if_pos h1]
  · intro h1 h2 h3
    rw [convert_vapor_fraction_to_mass, if_neg h2,
      if_neg (by intro he; rw [he] at h1; norm_num at h1), if_neg h3,
      if_neg (not_lt.mpr (by linarith)), if_pos h1]
  · intro h0 h1
    rw [convert_vapor_fraction_to_mass,
      if_neg (by intro he; rw [he] at h1; norm_num at h1),
      if_neg (by intro he; rw [he] at h0; norm_num at h0),
      if_neg (by intro he; rw [he] at h1; norm_num at h1),
      if_neg (not_lt.mpr h0), if_neg (not_lt.mpr h1)]

/-- C7 witness: the theorem applied at the three sentinels, an ordinary
negative value, an ordinary value above 1 and a value inside [0, 1]. -/
theorem c7_vapor_fraction_witness :
    convert_vapor_fraction_to_mass 998 = 1 ∧
      convert_vapor_fraction_to_mass (-998) = 0 ∧
      convert_vapor_fraction_to_mass 999 = 1 / 2 ∧
      convert_vapor_fraction_to_mass (-5) = 0 ∧
      convert_vapor_fraction_to_mass 2 = 1 ∧
      convert_vapor_fraction_to_mass (1 / 2) = 1 / 2 :=
  ⟨(c7_vapor_fraction 998).1 rfl,
   (c7_vapor_fraction (-998)).2.1 rfl,
   (c7_vapor_fraction 999).2.2.1 rfl,
   (c7_vapor_fraction (-5)).2.2.2.1 (by norm_num) (by norm_num),
   (c7_vapor_fraction 2).2.2.2.2.1 (by norm_num) (by norm_num) (by norm_num),
   (c7_vapor_fraction (1 / 2)).2.2.2.2.2 (by norm_num) (by norm_num)⟩

/-- C8 counterexample: for the nonempty grids temps = [0], pressures = [-1]
the synthesized dew line is [-50000], which is not strictly positive, so
the claim's quantification over every nonempty pair of grids fails (the
synthesis only behaves as described when the pressure grid is positive). -/
theorem c8_counterexample :
    create_dew_line [(0 : ℚ)] [(-1 : ℚ)] = [(-50000 : ℚ)] ∧
      ¬ (0 < (-50000 : ℚ)) := by
  constructor
  · with_unfolding_all rfl
  · norm_num

/-- C8 (amended): for nonempty grids whose pressures are all positive, the
bubble line has one value per y-grid point, is strictly decreasing, and
each value is a positive fraction (≤ 1) of the maximum grid pressure in Pa;
the dew line has one strictly positive value per y-grid point and the
emitted (reverse-traversal) sequence is strictly increasing, each value a
proper fraction of the minimum grid pressure in Pa. -/
theorem c8_lines_amended (temps pressures : List ℚ) (ht : temps ≠ [])
    (hp : pressures ≠ []) (hpos : ∀ p ∈ pressures, 0 < p) :
    (create_bubble_line temps pressures).length = temps.length ∧
      List.Pairwise (· > ·) (create_bubble_line temps pressures) ∧
      (∀ v ∈ create_bubble_line temps pressures,
        0 < v ∧ v ≤ pyMax pressures * 100000) ∧
      (create_dew_line temps pressures).length = temps.length ∧
      List.Pairwise (· < ·) (create_dew_line temps pressures) ∧
      (∀ v ∈ create_dew_line temps pressures,
        0 < v ∧ v < pyMin pressures * 100000) :=
  ⟨create_bubble_line_length temps pressures,
   create_bubble_line_strictAnti ht hp hpos,
   create_bubble_line_bounds ht hp hpos,
   create_dew_line_length temps pressures,
   create_dew_line_strictMono ht hp hpos,
   create_dew_line_bounds ht hp hpos⟩

/-- C8 witness: the amended theorem applied to the two-point grids
temps = [250, 300], pressures = [1, 2]: both synthesized lines have one
value per temperature point. -/
theorem c8_lines_amended_witness :
    (create_bubble_line [(250 : ℚ), 300] [(1 : ℚ), 2]).length = 2 ∧
      (create_dew_line [(250 : ℚ), 300] [(1 : ℚ), 2]).length = 2 := by
  have hpos : ∀ p ∈ [(1 : ℚ), 2], 0 < p := by
    intro p hp
    rcases List.mem_cons.mp hp with h | h
    · rw [h]; norm_num
    · rw [List.mem_singleton.mp h]; norm_num
  exact ⟨(c8_lines_amended [(250 : ℚ), 300] [(1 : ℚ), 2] (by simp) (by simp) hpos).1,
    (c8_lines_amended [(250 : ℚ), 300] [(1 : ℚ), 2] (by simp) (by simp) hpos).2.2.2.1⟩

/-- C9: a composition whose fraction sum differs from 1 by at least 1e-6
fails validation and the endpoint returns the 400 error before any flash
is attempted (the error output is the same for every flash-outcome
function); a sum within 1e-6 of 1 passes validation and the flash grid is
computed. -/
theorem c9_validation (fr : List ℚ) (nx ny : ℕ) (ok ok2 : ℕ → ℕ → Bool) :
    (1 / 1000000 ≤ |fr.sum - 1| →
        ptFlashEndpoint fr nx ny ok =
            Except.error "Invalid composition - fractions must sum to 1" ∧
          ptFlashEndpoint fr nx ny ok = ptFlashEndpoint fr nx ny ok2) ∧
      (|fr.sum - 1| < 1 / 1000000 →
        ptFlashEndpoint fr nx ny ok = Except.ok (ptFlashResults nx ny ok)) := by
  constructor
  · intro hge
    have hnot : ¬(|fr.sum - 1| < 1 / 1000000) := not_lt.mpr hge
    have hv : validate_composition fr = false := by
      rw [validate_composition, decide_eq_false hnot]
    constructor
    · simp [ptFlashEndpoint, hv]
    · simp [ptFlashEndpoint, hv]
  · intro hlt
    have hv : validate_composition fr = true := by
      rw [validate_composition, decide_eq_true hlt]
    simp [ptFlashEndpoint, hv]

/-- C9 witness: fractions summing to 0.99 (|0.99 − 1| = 0.01 ≥ 1e-6) make
the endpoint return the validation error. -/
theorem c9_validation_witness :
    ptFlashEndpoint [(99 : ℚ) / 100] 2 2 (fun _ _ => true) =
      Except.error "Invalid composition - fractions must sum to 1" :=
  ((c9_validation [(99 : ℚ) / 100] 2 2 (fun _ _ => true) (fun _ _ => false)).1
    (by
      have h1 : ([(99 : ℚ) / 100].sum - 1) = -(1 / 100) := by
        simp only [List.sum_cons, List.sum_nil, add_zero]
        norm_num
      rw [h1, abs_neg, abs_of_pos (by norm_num : (0 : ℚ) < 1 / 100)]
      norm_num)).1

/-- C10: a result carrying neither index fields nor a flat `index`, whose
x/y coordinate fields are present but unparsable, is not dropped:
`find_nearest_index` catches the parse failure and returns 0 for both
axes, the bounds check passes on nonempty grids, and the result's
properties are written into grid cell (0, 0). -/
theorem c10_unparsable_maps_to_origin (xg yg : List ℚ) (hx : xg ≠ [])
    (hy : yg ≠ []) :
    find_nearest_index xg none = 0 ∧
      mappedCell ⟨none, none, none, some none, some none⟩ xg yg = some (0, 0) := by
  constructor
  · rfl
  · have hx' : (0 : ℤ) < (xg.length : ℤ) := by
      exact_mod_cast List.length_pos.mpr hx
    have hy' : (0 : ℤ) < (yg.length : ℤ) := by
      exact_mod_cast List.length_pos.mpr hy
    have e1 : mappedCell ⟨none, none, none, some none, some none⟩ xg yg =
        if 0 ≤ (0 : ℤ) ∧ (0 : ℤ) < (xg.length : ℤ) ∧ 0 ≤ (0 : ℤ) ∧
            (0 : ℤ) < (yg.length : ℤ)
        then some ((0 : ℤ).toNat, (0 : ℤ).toNat) else none := rfl
    rw [e1, if_pos ⟨le_refl 0, hx', le_refl 0, hy'⟩]
    rfl

/-- C10 witness: the theorem applied to the singleton grids [1] and [2]. -/
theorem c10_unparsable_maps_to_origin_witness :
    mappedCell ⟨none, none, none, some none, some none⟩ [(1 : ℚ)] [(2 : ℚ)] =
      some (0, 0) :=
  (c10_unparsable_maps_to_origin [(1 : ℚ)] [(2 : ℚ)] (by simp) (by simp)).2
